import Mathlib

/-!
Verification of the traversal core of `ndarray-rs`
(`src/ndarray/array/iter.rs`): flat element iteration (`Iter`),
axis metadata iteration (`Axes`) and axis-slab iteration (`AxisView`),
shallowly embedded over a model of the external `Array` collaborator.

Rust `usize` indexing that can panic is modelled by `Option`-returning
functions (`none` = panic); iterator `next` returning `Option<Item>`
is modelled by the `Option (Option item × state)` pattern, where the
outer `none` is a panic and the inner `Option item` is the Rust
`Option` returned by `next`.
-/

namespace NdarrayRs

/-- Modelled from the spec: the external `Array` collaborator (§3, §6),
whose implementation is not in the verified source tree.  It exposes
`shape`, `strides`, a total logical element map (what a successful
`get` returns), bounds-checked `get`, and sub-range `slice`.
Dimensionality `D` is the common length of `shape` and `strides`
(the Rust const generic), recorded by the `wf` predicate below. -/
structure NDArray (T : Type) where
  shape : List Nat
  strides : List Nat
  elem : List Nat → T

/-- The well-formedness guaranteed in Rust by the const generic `D`:
shape and strides both have length `D`. -/
def wf (D : Nat) (a : NDArray T) : Prop :=
  a.shape.length = D ∧ a.strides.length = D

instance (D : Nat) (a : NDArray T) : Decidable (wf D a) := by
  unfold wf; infer_instance

/-- Modelled from the spec: `get(indices) -> Option<&T>` "returns absent
when any index is out of bounds for its axis" (§6). -/
def inBounds (shape indices : List Nat) : Bool :=
  indices.length == shape.length && (List.zip indices shape).all fun p => p.1 < p.2

/-- Modelled from the spec: the external accessor. -/
def NDArray.get (a : NDArray T) (indices : List Nat) : Option T :=
  if inBounds a.shape indices then some (a.elem indices) else none

/-- Modelled from the spec: `slice(ranges) -> ArrayView` "returns a
borrowing, non-copying view restricted to the given per-axis ranges"
(§6): axis `i` of the view has extent `ranges[i].end - ranges[i].start`
and its index `j` addresses the parent's index `ranges[i].start + j`.
A range is a `(start, stop)` pair. -/
def NDArray.slice (a : NDArray T) (ranges : List (Nat × Nat)) : NDArray T :=
  { shape := ranges.map fun r => r.2 - r.1
    strides := a.strides
    elem := fun idx => a.elem (List.zipWith (fun r i => r.1 + i) ranges idx) }

/-! ## Flat traversal (`Iter`)

The iterator state is the index counter `indices : [usize; D]`,
initialised to all zeros (`Iter::init`). -/

/-- Embeds `Iter::increment_idx_at_axis`:
```
self.indices[axis] += 1;
if axis != 0 && self.indices[axis] >= self.array.shape[axis] {
    self.indices[axis] = 0;
    self.increment_idx_at_axis(axis - 1);
}
```
An out-of-bounds `[...]` access (a Rust panic) yields `none`. -/
def increment_idx_at_axis (shape : List Nat) (indices : List Nat) :
    Nat → Option (List Nat)
  | 0 =>
    match indices[0]? with
    | some v => some (indices.set 0 (v + 1))
    | none => none
  | axis + 1 =>
    match indices[axis + 1]?, shape[axis + 1]? with
    | some v, some s =>
      let indices1 := indices.set (axis + 1) (v + 1)
      if v + 1 ≥ s then
        increment_idx_at_axis shape (indices1.set (axis + 1) 0) axis
      else
        some indices1
    | _, _ => none

/-- Embeds `Iter::increment_indices`, i.e. `increment_idx_at_axis(D - 1)`.
For `D = 0` the Rust expression `D - 1` underflows `usize` and the call
panics (debug overflow check, or the wrapped huge index panicking the
array access), modelled as `none`. -/
def increment_indices (D : Nat) (shape indices : List Nat) : Option (List Nat) :=
  match D with
  | 0 => none
  | d + 1 => increment_idx_at_axis shape indices d

/-- Embeds `<Iter as Iterator>::next`:
```
let item = self.array.get(self.indices);
self.increment_indices();
item
```
Returns `none` on panic, otherwise the yielded item (the Rust
`Option<&T>`) together with the updated index counter. -/
def iterNext (D : Nat) (a : NDArray T) (indices : List Nat) :
    Option (Option T × List Nat) :=
  let item := a.get indices
  match increment_indices D a.shape indices with
  | none => none
  | some indices1 => some (item, indices1)

/-- The trace of a flat traversal consumed until the first
end-of-sequence: each entry records the index tuple passed to the
accessor and the accessor's answer.  A panic aborts the trace. -/
def flatTraceFrom (D : Nat) (a : NDArray T) :
    Nat → List Nat → List (List Nat × Option T)
  | 0, _ => []
  | fuel + 1, indices =>
    match iterNext D a indices with
    | none => []
    | some (none, _) => [(indices, none)]
    | some (some t, indices1) => (indices, some t) :: flatTraceFrom D a fuel indices1

/-- The trace of `array.flat()` consumed until the first
end-of-sequence.  `shape.prod + 1` steps always suffice. -/
def flatTrace (D : Nat) (a : NDArray T) : List (List Nat × Option T) :=
  flatTraceFrom D a (a.shape.prod + 1) (List.replicate D 0)

/-- The elements yielded by `array.flat()`. -/
def flatList (D : Nat) (a : NDArray T) : List T :=
  (flatTrace D a).filterMap Prod.snd

/-- The index tuples of the successful lookups of `array.flat()`,
in traversal order. -/
def succLookups (D : Nat) (a : NDArray T) : List (List Nat) :=
  (flatTrace D a).filterMap fun p => p.2.map fun _ => p.1

/-- Iterating `Iter::next` `n` times from a given index counter,
keeping only the final counter (`none` = some call panicked). -/
def iterateNext (D : Nat) (a : NDArray T) : Nat → List Nat → Option (List Nat)
  | 0, indices => some indices
  | n + 1, indices =>
    match iterNext D a indices with
    | none => none
    | some (_, indices1) => iterateNext D a n indices1

/-! ## Axis metadata traversal (`Axes`) -/

/-- Embeds `<Axes as Iterator>::next`: yields
`(shape[axis], strides[axis])` while `axis < D`, then `None`;
always increments the axis cursor.  The outer `none` is a panic of the
`[...]` accesses. -/
def axesNext (D : Nat) (shape strides : List Nat) (axis : Nat) :
    Option (Option (Nat × Nat) × Nat) :=
  if axis < D then
    match shape[axis]?, strides[axis]? with
    | some s, some st => some (some (s, st), axis + 1)
    | _, _ => none
  else
    some (none, axis + 1)

/-- The pairs yielded by an `Axes` iterator started at cursor `axis`,
consumed until the first end-of-sequence. -/
def axesRun (D : Nat) (shape strides : List Nat) :
    Nat → Nat → List (Nat × Nat)
  | 0, _ => []
  | fuel + 1, axis =>
    match axesNext D shape strides axis with
    | none => []
    | some (none, _) => []
    | some (some p, axis1) => p :: axesRun D shape strides fuel axis1

/-- The pairs yielded by `Axes::init(shape, strides)` (cursor starts
at 0); `D + 1` steps always suffice. -/
def axesList (D : Nat) (shape strides : List Nat) : List (Nat × Nat) :=
  axesRun D shape strides (D + 1) 0

/-! ## Axis-slab traversal (`AxisView`) -/

/-- The per-axis full ranges `0..shape[i]`. -/
def fullRanges (shape : List Nat) : List (Nat × Nat) :=
  shape.map fun s => (0, s)

/-- An `AxisView` state: the range selector `slice`, the fixed target
`axis` and the position counter `idx`. -/
abbrev AVState : Type := List (Nat × Nat) × Nat × Nat

/-- Embeds `AxisView::init`: panics (`none`) when `axis >= D`
(`panic!("Axis out of bound ...")`), otherwise builds the selector by
pushing `0..shape` for every `(shape, _)` yielded by `array.axes()`
into an `ArrayVec` and unwrapping it into a `[Range; D]`
(`into_inner().unwrap()` panics unless exactly `D` ranges were pushed). -/
def AxisView.init (D : Nat) (a : NDArray T) (axis : Nat) : Option AVState :=
  if axis ≥ D then none
  else
    let slice := (axesList D a.shape a.strides).map fun p => (0, p.1)
    if slice.length = D then some (slice, axis, 0) else none

/-- Embeds `<AxisView as Iterator>::next`:
```
if self.idx < self.array.shape[self.axis] {
    self.slice[self.axis] = self.idx..self.idx + 1;
    let view = self.array.slice(&self.slice);
    self.idx += 1;
    Some(view)
} else { None }
```
The outer `none` is a panic of `shape[self.axis]`. -/
def axisViewNext (a : NDArray T) (st : AVState) :
    Option (Option (NDArray T) × AVState) :=
  match st with
  | (slice, axis, idx) =>
    match a.shape[axis]? with
    | none => none
    | some s =>
      if idx < s then
        let slice1 := slice.set axis (idx, idx + 1)
        some (some (a.slice slice1), (slice1, axis, idx + 1))
      else
        some (none, (slice, axis, idx))

/-- The views yielded by an `AxisView` run from a given state,
consumed until the first end-of-sequence. -/
def axisViewRunFrom (a : NDArray T) : Nat → AVState → List (NDArray T)
  | 0, _ => []
  | fuel + 1, st =>
    match axisViewNext a st with
    | none => []
    | some (none, _) => []
    | some (some v, st1) => v :: axisViewRunFrom a fuel st1

/-- The views yielded by `array.axis_view(axis)` consumed until the
first end-of-sequence; `none` when construction panicked.
`shape[axis] + 1` steps always suffice. -/
def axisViews (D : Nat) (a : NDArray T) (axis : Nat) : Option (List (NDArray T)) :=
  (AxisView.init D a axis).map fun st =>
    axisViewRunFrom a (a.shape.getD axis 0 + 1) st

/-- Iterating `AxisView::next` `n` times, keeping the final state. -/
def axisViewIterate (a : NDArray T) : Nat → AVState → Option AVState
  | 0, st => some st
  | n + 1, st =>
    match axisViewNext a st with
    | none => none
    | some (_, st1) => axisViewIterate a n st1

/-! ## Mixed-radix enumeration used to describe the odometer -/

/-- The `k`-th index tuple of the row-major enumeration of a shape:
the mixed-radix digits of `k`, most significant (axis 0) first. -/
def unrank : List Nat → Nat → List Nat
  | [], _ => []
  | _ :: rest, k => (k / rest.prod) :: unrank rest (k % rest.prod)

/-! ## Concrete arrays used as test inputs

`ex23` is the 2×3 array of the repository's `iter` test:
`Array::init(vec![1, 2, 3, 4, 5, 6], [2, 3])` (row-major, so strides
`[3, 1]` and element `(i, j) ↦ data[3 * i + j]`). -/

def ex23 : NDArray Nat :=
  { shape := [2, 3]
    strides := [3, 1]
    elem := fun idx =>
      [1, 2, 3, 4, 5, 6].getD (idx.getD 0 0 * 3 + idx.getD 1 0) 0 }

/-- A 1×0 array (second axis empty). -/
def zarr10 : NDArray Nat :=
  { shape := [1, 0], strides := [0, 1], elem := fun _ => 0 }

/-- A 2×0 array (second axis empty). -/
def zarr20 : NDArray Nat :=
  { shape := [2, 0], strides := [0, 1], elem := fun _ => 0 }

/-! ## Lemmas about `Axes` -/

theorem axesRun_eq_zip {D : Nat} {shape strides : List Nat}
    (hs : shape.length = D) (ht : strides.length = D) :
    ∀ fuel axis, axis ≤ D → D - axis < fuel →
      axesRun D shape strides fuel axis =
        List.zip (shape.drop axis) (strides.drop axis) := by
  intro fuel
  induction fuel with
  | zero => intro axis _ h2; omega
  | succ fuel ih =>
    intro axis h1 h2
    by_cases hax : axis < D
    · have hsa : axis < shape.length := by omega
      have hta : axis < strides.length := by omega
      simp only [axesRun, axesNext, if_pos hax, List.getElem?_eq_getElem hsa,
        List.getElem?_eq_getElem hta]
      rw [ih (axis + 1) (by omega) (by omega),
        List.drop_eq_getElem_cons hsa, List.drop_eq_getElem_cons hta,
        List.zip_cons_cons]
    · have haxD : axis = D := by omega
      subst haxD
      simp only [axesRun, axesNext, if_neg hax,
        List.drop_eq_nil_of_le (le_of_eq hs),
        List.drop_eq_nil_of_le (le_of_eq ht), List.zip_nil_left]

theorem axesList_eq_zip {D : Nat} {shape strides : List Nat}
    (hs : shape.length = D) (ht : strides.length = D) :
    axesList D shape strides = List.zip shape strides := by
  have h := axesRun_eq_zip hs ht (D + 1) 0 (Nat.zero_le _) (by omega)
  simpa [axesList] using h

theorem axesList_length {D : Nat} {shape strides : List Nat}
    (hs : shape.length = D) (ht : strides.length = D) :
    (axesList D shape strides).length = D := by
  rw [axesList_eq_zip hs ht, List.length_zip, hs, ht, Nat.min_self]

theorem axesList_getElem {D : Nat} {shape strides : List Nat}
    (hs : shape.length = D) (ht : strides.length = D)
    {i : Nat} (hi : i < D) :
    (axesList D shape strides)[i]? = some (shape.getD i 0, strides.getD i 0) := by
  have h1 : i < shape.length := by omega
  have h2 : i < strides.length := by omega
  rw [axesList_eq_zip hs ht]
  simp [List.getElem?_zip_eq_some, List.getD_eq_getElem?_getD,
    List.getElem?_eq_getElem, h1, h2]

/-! ## Lemmas about `AxisView` -/

theorem map_zip_fst {α β γ : Type _} (f : α → γ) :
    ∀ (l1 : List α) (l2 : List β), l1.length = l2.length →
      (List.zip l1 l2).map (fun p => f p.1) = l1.map f
  | [], [], _ => rfl
  | [], _ :: _, h => by simp at h
  | _ :: _, [], h => by simp at h
  | a :: l1, b :: l2, h => by
    rw [List.zip_cons_cons, List.map_cons, List.map_cons,
      map_zip_fst f l1 l2 (by simpa using h)]

theorem fullRanges_length (shape : List Nat) :
    (fullRanges shape).length = shape.length := by
  simp [fullRanges]

theorem fullRanges_getElem {shape : List Nat} {i : Nat} (h : i < shape.length) :
    (fullRanges shape)[i]? = some (0, shape.getD i 0) := by
  simp [fullRanges, List.getElem?_eq_getElem, h, List.getD_eq_getElem?_getD]

theorem axisViewInit_eq {D : Nat} {a : NDArray T} (hwf : wf D a)
    {axis : Nat} (hax : axis < D) :
    AxisView.init D a axis = some (fullRanges a.shape, axis, 0) := by
  have hfull : (axesList D a.shape a.strides).map (fun p => ((0 : Nat), p.1)) =
      fullRanges a.shape := by
    rw [axesList_eq_zip hwf.1 hwf.2]
    exact map_zip_fst _ _ _ (by rw [hwf.1, hwf.2])
  have hlen : (fullRanges a.shape).length = D := by
    rw [fullRanges_length, hwf.1]
  simp only [AxisView.init, hfull]
  rw [if_neg (by omega), if_pos hlen]

theorem axisViewInit_none {D : Nat} (a : NDArray T) {axis : Nat} (hax : D ≤ axis) :
    AxisView.init D a axis = none := by
  simp [AxisView.init, hax]

/-- Two lists of the same length that agree off position `j` are equal
after both are overwritten at `j`. -/
theorem set_eq_of_agree_off {α : Type _} {l m : List α} {j : Nat} (x : α)
    (hlen : l.length = m.length) (h : ∀ i, i ≠ j → l[i]? = m[i]?) :
    l.set j x = m.set j x := by
  apply List.ext_getElem?
  intro i
  by_cases hij : i = j
  · subst hij
    rw [List.getElem?_set_self', List.getElem?_set_self']
    by_cases hi : i < l.length
    · rw [List.getElem?_eq_getElem hi, List.getElem?_eq_getElem (by omega)]
      rfl
    · rw [List.getElem?_eq_none (by omega), List.getElem?_eq_none (by omega)]
  · rw [List.getElem?_set_ne (fun hj => hij (hj.symm)),
      List.getElem?_set_ne (fun hj => hij (hj.symm)), h i hij]

theorem axisViewRunFrom_eq {D : Nat} {a : NDArray T} (hwf : wf D a)
    {axis : Nat} (hax : axis < D) :
    ∀ n idx slice, slice.length = D →
      (∀ i, i ≠ axis → slice[i]? = (fullRanges a.shape)[i]?) →
      idx + n = a.shape.getD axis 0 → ∀ fuel, n < fuel →
      axisViewRunFrom a fuel (slice, axis, idx) =
        (List.range' idx n).map
          (fun k => a.slice ((fullRanges a.shape).set axis (k, k + 1))) := by
  have haxs : axis < a.shape.length := by
    have h1 := hwf.1
    omega
  have hsome : a.shape[axis]? = some (a.shape.getD axis 0) := by
    rw [List.getElem?_eq_getElem haxs, List.getD_eq_getElem?_getD,
      List.getElem?_eq_getElem haxs]
    rfl
  intro n
  induction n with
  | zero =>
    intro idx slice hlen hagree hsum fuel hfuel
    match fuel, hfuel with
    | fuel + 1, _ =>
      simp only [axisViewRunFrom, axisViewNext, hsome]
      rw [if_neg (by omega)]
      rfl
  | succ n ih =>
    intro idx slice hlen hagree hsum fuel hfuel
    match fuel, hfuel with
    | fuel + 1, hfuel =>
      have hidx : idx < a.shape.getD axis 0 := by omega
      have hset : slice.set axis (idx, idx + 1) =
          (fullRanges a.shape).set axis (idx, idx + 1) :=
        set_eq_of_agree_off _ (by rw [hlen, fullRanges_length, hwf.1]) hagree
      simp only [axisViewRunFrom, axisViewNext, hsome]
      rw [if_pos hidx]
      simp only [hset]
      rw [ih (idx + 1) ((fullRanges a.shape).set axis (idx, idx + 1))
        (by rw [List.length_set, fullRanges_length, hwf.1])
        (fun i hi => List.getElem?_set_ne (fun hj => hi (hj.symm)))
        (by omega) fuel (by omega)]
      rw [List.range'_succ]
      rfl

theorem axisViews_eq {D : Nat} {a : NDArray T} (hwf : wf D a)
    {axis : Nat} (hax : axis < D) :
    axisViews D a axis = some ((List.range (a.shape.getD axis 0)).map
      (fun k => a.slice ((fullRanges a.shape).set axis (k, k + 1)))) := by
  rw [axisViews, axisViewInit_eq hwf hax]
  simp only [Option.map_some']
  rw [axisViewRunFrom_eq hwf hax (a.shape.getD axis 0) 0 (fullRanges a.shape)
    (by rw [fullRanges_length, hwf.1]) (fun i _ => rfl) (by omega)
    (a.shape.getD axis 0 + 1) (by omega)]
  rw [List.range_eq_range']

/-! ## Bounds checking and slab views -/

theorem inBounds_iff : ∀ (shape indices : List Nat),
    inBounds shape indices = true ↔
      indices.length = shape.length ∧
        ∀ i, i < shape.length → indices.getD i 0 < shape.getD i 0
  | [], [] => by simp [inBounds]
  | [], _ :: _ => by simp [inBounds]
  | _ :: _, [] => by simp [inBounds]
  | s :: sh, i :: idx => by
    have ih := inBounds_iff sh idx
    simp only [inBounds, Bool.and_eq_true, beq_iff_eq] at ih
    constructor
    · intro h
      simp only [inBounds, List.zip_cons_cons, List.all_cons, Bool.and_eq_true,
        beq_iff_eq, decide_eq_true_eq, List.length_cons] at h
      obtain ⟨hlen, hi, hall⟩ := h
      have hrest := ih.mp ⟨by omega, hall⟩
      refine ⟨by simp only [List.length_cons]; omega, ?_⟩
      intro j hj
      cases j with
      | zero => simpa using hi
      | succ j =>
        simp only [List.getD_cons_succ]
        exact hrest.2 j (by simp at hj; omega)
    · rintro ⟨hlen, hall⟩
      have h0 := hall 0 (by simp)
      have hrest := ih.mpr ⟨by simpa using hlen,
        fun j hj => by simpa using hall (j + 1) (by simp; omega)⟩
      simp only [inBounds, List.zip_cons_cons, List.all_cons, Bool.and_eq_true,
        beq_iff_eq, decide_eq_true_eq, List.length_cons]
      exact ⟨by omega, by simpa using h0, hrest.2⟩

theorem get_none_of_head {a : NDArray T} {idx : List Nat}
    (hlen : 0 < a.shape.length) (h : a.shape.getD 0 0 ≤ idx.getD 0 0) :
    a.get idx = none := by
  have hnb : ¬ inBounds a.shape idx = true := by
    intro hb
    have := ((inBounds_iff _ _).mp hb).2 0 hlen
    omega
  simp [NDArray.get, hnb]

theorem slab_shape {a : NDArray T} {axis k : Nat} (_hax : axis < a.shape.length) :
    (a.slice ((fullRanges a.shape).set axis (k, k + 1))).shape =
      a.shape.set axis 1 := by
  simp only [NDArray.slice, List.map_set, fullRanges, List.map_map]
  have h1 : (fun (r : Nat × Nat) => r.2 - r.1) ∘ (fun s => ((0 : Nat), s)) =
      fun (s : Nat) => s := by
    funext s
    simp
  rw [h1, List.map_id']
  have h2 : k + 1 - k = 1 := by omega
  rw [h2]

theorem slab_zipWith {shape idx : List Nat} {axis k : Nat}
    (hax : axis < shape.length) (hlen : idx.length = shape.length)
    (hz : idx.getD axis 0 = 0) :
    List.zipWith (fun (r : Nat × Nat) i => r.1 + i)
        ((fullRanges shape).set axis (k, k + 1)) idx = idx.set axis k := by
  apply List.ext_getElem?
  intro i
  rw [List.getElem?_zipWith']
  by_cases hi : i < shape.length
  · have hii : i < idx.length := by omega
    by_cases hia : i = axis
    · subst hia
      have hidx0 : idx[i] = 0 := by
        rw [List.getD_eq_getElem?_getD, List.getElem?_eq_getElem hii] at hz
        simpa using hz
      rw [List.getElem?_set_self (by rw [fullRanges_length]; exact hax),
        List.getElem?_eq_getElem hii, List.getElem?_set_self hii]
      simp [hidx0]
    · rw [List.getElem?_set_ne (fun h => hia h.symm), fullRanges_getElem hi,
        List.getElem?_set_ne (fun h => hia h.symm), List.getElem?_eq_getElem hii]
      simp
  · have h1 : shape.length ≤ i := by omega
    rw [List.getElem?_eq_none
        (show ((fullRanges shape).set axis (k, k + 1)).length ≤ i by
          rw [List.length_set, fullRanges_length]; omega),
      List.getElem?_eq_none
        (show (idx.set axis k).length ≤ i by rw [List.length_set]; omega)]
    rfl

theorem slab_get {a : NDArray T} {axis k : Nat}
    (hax : axis < a.shape.length) (hk : k < a.shape.getD axis 0)
    {idx : List Nat} (hin : inBounds (a.shape.set axis 1) idx = true) :
    (a.slice ((fullRanges a.shape).set axis (k, k + 1))).get idx =
      a.get (idx.set axis k) := by
  have hiff := (inBounds_iff _ _).mp hin
  have hlen : idx.length = a.shape.length := by
    have := hiff.1
    simpa using this
  have hzax : idx.getD axis 0 = 0 := by
    have h1 := hiff.2 axis (by simpa using hax)
    have h2 : (a.shape.set axis 1).getD axis 0 = 1 := by
      rw [List.getD_eq_getElem?_getD, List.getElem?_set_self hax]
      rfl
    rw [h2] at h1
    omega
  have hin2 : inBounds a.shape (idx.set axis k) = true := by
    rw [inBounds_iff]
    refine ⟨by simpa using hlen, ?_⟩
    intro i hi
    by_cases hia : i = axis
    · subst hia
      rw [List.getD_eq_getElem?_getD (idx.set i k),
        List.getElem?_set_self (by omega)]
      simpa using hk
    · rw [List.getD_eq_getElem?_getD (idx.set axis k),
        List.getElem?_set_ne (fun h => hia h.symm), ← List.getD_eq_getElem?_getD]
      have h2 := hiff.2 i (by simpa using hi)
      rw [List.getD_eq_getElem?_getD (a.shape.set axis 1),
        List.getElem?_set_ne (fun h => hia h.symm),
        ← List.getD_eq_getElem?_getD] at h2
      exact h2
  have hsh := @slab_shape T a axis k hax
  simp only [NDArray.get, hsh, hin, hin2, if_true]
  simp only [NDArray.slice]
  rw [slab_zipWith hax hlen hzax]

/-! ## Frame lemmas for the `AxisView` state -/

theorem axisViewNext_frame {a : NDArray T} {st : AVState}
    {r : Option (NDArray T)} {st1 : AVState}
    (h : axisViewNext a st = some (r, st1)) :
    st1.2.1 = st.2.1 ∧ (∀ i, i ≠ st.2.1 → st1.1[i]? = st.1[i]?) ∧
      (r.isSome = true → st1.1 = st.1.set st.2.1 (st.2.2, st.2.2 + 1)) := by
  obtain ⟨slice, ax, idx⟩ := st
  simp only [axisViewNext] at h
  cases hsh : a.shape[ax]? with
  | none => simp [hsh] at h
  | some s =>
    simp only [hsh] at h
    by_cases hlt : idx < s
    · rw [if_pos hlt] at h
      obtain ⟨h1, h2⟩ := Prod.mk.inj (Option.some.inj h)
      subst h1
      subst h2
      refine ⟨rfl, ?_, fun _ => rfl⟩
      intro i hi
      exact List.getElem?_set_ne (fun he => hi he.symm)
    · rw [if_neg hlt] at h
      obtain ⟨h1, h2⟩ := Prod.mk.inj (Option.some.inj h)
      subst h1
      subst h2
      exact ⟨rfl, fun i _ => rfl, fun hc => by cases hc⟩

theorem axisViewIterate_frame {a : NDArray T} {axis : Nat}
    (q : Nat → Option (Nat × Nat)) :
    ∀ (n : Nat) (st st1 : AVState), axisViewIterate a n st = some st1 →
      st.2.1 = axis → (∀ i, i ≠ axis → st.1[i]? = q i) →
      st1.2.1 = axis ∧ ∀ i, i ≠ axis → st1.1[i]? = q i := by
  intro n
  induction n with
  | zero =>
    intro st st1 h hax hq
    cases h
    exact ⟨hax, hq⟩
  | succ n ih =>
    intro st st1 h hax hq
    simp only [axisViewIterate] at h
    cases hn : axisViewNext a st with
    | none =>
      rw [hn] at h
      cases h
    | some p =>
      rw [hn] at h
      obtain ⟨r, stm⟩ := p
      have hf := axisViewNext_frame hn
      exact ih stm st1 h (hf.1.trans hax)
        (fun i hi => (hf.2.1 i (by rw [hax]; exact hi)).trans (hq i hi))

/-! ## Claim theorems for the `Axes` and `AxisView` components -/

/-- Claim C2: for every shape and strides arrays of length `D`, the
`Axes` traversal yields exactly `D` pairs, the `i`-th equal to
`(shape[i], strides[i])` in ascending order (it equals
`zip shape strides`); reconstruction from the same shape/stride pair is
the pure function `axesList` applied to the same arguments, so every
run yields the identical sequence. -/
theorem claim_C2 (D : Nat) (shape strides : List Nat)
    (hs : shape.length = D) (ht : strides.length = D) :
    (axesList D shape strides).length = D ∧
    (∀ i, i < D → (axesList D shape strides)[i]? =
      some (shape.getD i 0, strides.getD i 0)) ∧
    axesList D shape strides = List.zip shape strides :=
  ⟨axesList_length hs ht, fun _ hi => axesList_getElem hs ht hi,
    axesList_eq_zip hs ht⟩

theorem claim_C2_witness :
    (([2, 3] : List Nat).length = 2 ∧ ([3, 1] : List Nat).length = 2) ∧
    ((axesList 2 [2, 3] [3, 1]).length = 2 ∧
      (∀ i, i < 2 → (axesList 2 [2, 3] [3, 1])[i]? =
        some (([2, 3] : List Nat).getD i 0, ([3, 1] : List Nat).getD i 0)) ∧
      axesList 2 [2, 3] [3, 1] = List.zip [2, 3] [3, 1]) :=
  ⟨⟨by decide, by decide⟩, claim_C2 2 [2, 3] [3, 1] (by decide) (by decide)⟩

/-- Claim C4: constructing an `AxisView` with `axis ≥ D` panics before
producing any view (both the constructor and the whole traversal are
the panic value `none`), while construction with `axis < D` succeeds. -/
theorem claim_C4 (D : Nat) (a : NDArray T) (axis : Nat) (hwf : wf D a) :
    (D ≤ axis → AxisView.init D a axis = none ∧ axisViews D a axis = none) ∧
    (axis < D → ∃ st, AxisView.init D a axis = some st) := by
  constructor
  · intro h
    refine ⟨axisViewInit_none a h, ?_⟩
    rw [axisViews, axisViewInit_none a h]
    rfl
  · intro h
    exact ⟨_, axisViewInit_eq hwf h⟩

theorem claim_C4_witness :
    wf 2 ex23 ∧
    ((2 ≤ 2 → AxisView.init 2 ex23 2 = none ∧ axisViews 2 ex23 2 = none) ∧
      (2 < 2 → ∃ st, AxisView.init 2 ex23 2 = some st)) :=
  ⟨by decide, claim_C4 2 ex23 2 (by decide)⟩

/-- Claim C3: for every well-formed array and target axis `axis < D`,
the axis-slab traversal yields exactly `shape[axis]` views; the `k`-th
view is the slice of the array at ranges `k..k+1` on the target axis
and `0..shape[i]` on every other axis `i`, hence (by the specified
slice semantics) its shape is the original shape with extent 1 at the
target axis, and at every in-bounds index tuple its element is the
original array's element with the target axis fixed to `k`. -/
theorem claim_C3 (D : Nat) (a : NDArray T) (axis : Nat)
    (hwf : wf D a) (hax : axis < D) :
    ∃ views, axisViews D a axis = some views ∧
      views.length = a.shape.getD axis 0 ∧
      ∀ k, k < a.shape.getD axis 0 →
        views[k]? = some (a.slice ((fullRanges a.shape).set axis (k, k + 1))) ∧
        (a.slice ((fullRanges a.shape).set axis (k, k + 1))).shape =
          a.shape.set axis 1 ∧
        ∀ idx, inBounds (a.shape.set axis 1) idx = true →
          (a.slice ((fullRanges a.shape).set axis (k, k + 1))).get idx =
            a.get (idx.set axis k) := by
  have haxs : axis < a.shape.length := by
    have := hwf.1
    omega
  refine ⟨_, axisViews_eq hwf hax, by simp, ?_⟩
  intro k hk
  refine ⟨?_, slab_shape haxs, fun idx hin => slab_get haxs hk hin⟩
  rw [List.getElem?_map, List.getElem?_range hk]
  rfl

theorem claim_C3_witness :
    (wf 2 ex23 ∧ 0 < 2) ∧
    (∃ views, axisViews 2 ex23 0 = some views ∧
      views.length = ex23.shape.getD 0 0 ∧
      ∀ k, k < ex23.shape.getD 0 0 →
        views[k]? = some (ex23.slice ((fullRanges ex23.shape).set 0 (k, k + 1))) ∧
        (ex23.slice ((fullRanges ex23.shape).set 0 (k, k + 1))).shape =
          ex23.shape.set 0 1 ∧
        ∀ idx, inBounds (ex23.shape.set 0 1) idx = true →
          (ex23.slice ((fullRanges ex23.shape).set 0 (k, k + 1))).get idx =
            ex23.get (idx.set 0 k)) :=
  ⟨⟨by decide, by decide⟩, claim_C3 2 ex23 0 (by decide) (by decide)⟩

/-- Claim C9: at construction the range selector holds the full range
`0..shape[i]` on every non-target axis; each `next` step leaves the
target axis and every non-target range unchanged except for writing
`idx..idx+1` at the target axis when a view is produced; consequently
after any number of steps every non-target range still equals
`0..shape[i]`. -/
theorem claim_C9 (D : Nat) (a : NDArray T) (axis : Nat) (st0 : AVState)
    (hwf : wf D a) (hax : axis < D)
    (hinit : AxisView.init D a axis = some st0) :
    (∀ i, i < D → i ≠ axis → st0.1[i]? = some (0, a.shape.getD i 0)) ∧
    (∀ (st : AVState) (r : Option (NDArray T)) (st1 : AVState),
      axisViewNext a st = some (r, st1) →
      st1.2.1 = st.2.1 ∧ (∀ i, i ≠ st.2.1 → st1.1[i]? = st.1[i]?) ∧
      (r.isSome = true → st1.1 = st.1.set st.2.1 (st.2.2, st.2.2 + 1))) ∧
    (∀ (n : Nat) (st1 : AVState), axisViewIterate a n st0 = some st1 →
      st1.2.1 = axis ∧
      ∀ i, i < D → i ≠ axis → st1.1[i]? = some (0, a.shape.getD i 0)) := by
  have hst0 : st0 = (fullRanges a.shape, axis, 0) := by
    have h := hinit
    rw [axisViewInit_eq hwf hax] at h
    exact (Option.some.inj h).symm
  subst hst0
  refine ⟨?_, fun _ _ _ h => axisViewNext_frame h, ?_⟩
  · intro i hiD hi
    exact fullRanges_getElem (by have := hwf.1; omega)
  · intro n st1 hiter
    have hframe := axisViewIterate_frame
      (fun i => (fullRanges a.shape)[i]?) n _ st1 hiter rfl (fun _ _ => rfl)
    refine ⟨hframe.1, ?_⟩
    intro i hiD hi
    rw [hframe.2 i hi]
    exact fullRanges_getElem (by have := hwf.1; omega)

theorem claim_C9_witness :
    (wf 2 ex23 ∧ 0 < 2 ∧
      AxisView.init 2 ex23 0 = some (fullRanges ex23.shape, 0, 0)) ∧
    ((∀ i, i < 2 → i ≠ 0 →
        (fullRanges ex23.shape, 0, 0).1[i]? = some (0, ex23.shape.getD i 0)) ∧
      (∀ (st : AVState) (r : Option (NDArray Nat)) (st1 : AVState),
        axisViewNext ex23 st = some (r, st1) →
        st1.2.1 = st.2.1 ∧ (∀ i, i ≠ st.2.1 → st1.1[i]? = st.1[i]?) ∧
        (r.isSome = true → st1.1 = st.1.set st.2.1 (st.2.2, st.2.2 + 1))) ∧
      (∀ (n : Nat) (st1 : AVState),
        axisViewIterate ex23 n (fullRanges ex23.shape, 0, 0) = some st1 →
        st1.2.1 = 0 ∧
        ∀ i, i < 2 → i ≠ 0 → st1.1[i]? = some (0, ex23.shape.getD i 0))) :=
  ⟨⟨by decide, by decide, by decide⟩,
    claim_C9 2 ex23 0 (fullRanges ex23.shape, 0, 0) (by decide) (by decide)
      (by decide)⟩

/-! ## Basic lemmas about the odometer increment -/

theorem inc_length : ∀ (axis : Nat) (shape indices out : List Nat),
    increment_idx_at_axis shape indices axis = some out →
    out.length = indices.length := by
  intro axis
  induction axis with
  | zero =>
    intro shape indices out h
    simp only [increment_idx_at_axis] at h
    cases hi : indices[0]? with
    | none => simp [hi] at h
    | some v =>
      simp only [hi] at h
      cases h
      simp
  | succ axis ih =>
    intro shape indices out h
    simp only [increment_idx_at_axis] at h
    cases hi : indices[axis + 1]? with
    | none => simp [hi] at h
    | some v =>
      cases hs : shape[axis + 1]? with
      | none => simp [hi, hs] at h
      | some s =>
        simp only [hi, hs] at h
        by_cases hge : v + 1 ≥ s
        · rw [if_pos hge] at h
          have h1 := ih shape _ out h
          simpa using h1
        · rw [if_neg hge] at h
          cases h
          simp

theorem inc_isSome : ∀ (axis : Nat) (shape indices : List Nat),
    axis < shape.length → axis < indices.length →
    ∃ out, increment_idx_at_axis shape indices axis = some out := by
  intro axis
  induction axis with
  | zero =>
    intro shape indices _ hi
    simp only [increment_idx_at_axis, List.getElem?_eq_getElem hi]
    exact ⟨_, rfl⟩
  | succ axis ih =>
    intro shape indices hs hi
    simp only [increment_idx_at_axis, List.getElem?_eq_getElem hs,
      List.getElem?_eq_getElem hi]
    by_cases hge : indices[axis + 1] + 1 ≥ shape[axis + 1]
    · rw [if_pos hge]
      exact ih shape _ (by omega) (by simpa using Nat.lt_of_succ_lt hi)
    · rw [if_neg hge]
      exact ⟨_, rfl⟩

theorem inc_head : ∀ (axis : Nat) (shape indices out : List Nat),
    increment_idx_at_axis shape indices axis = some out →
    indices.getD 0 0 ≤ out.getD 0 0 := by
  intro axis
  induction axis with
  | zero =>
    intro shape indices out h
    simp only [increment_idx_at_axis] at h
    cases hi : indices[0]? with
    | none => simp [hi] at h
    | some v =>
      simp only [hi] at h
      cases h
      have h0 : 0 < indices.length := by
        by_contra hc
        rw [List.getElem?_eq_none (by omega)] at hi
        cases hi
      rw [List.getD_eq_getElem?_getD, List.getD_eq_getElem?_getD,
        List.getElem?_set_self h0, hi]
      simp
  | succ axis ih =>
    intro shape indices out h
    simp only [increment_idx_at_axis] at h
    cases hi : indices[axis + 1]? with
    | none => simp [hi] at h
    | some v =>
      cases hs : shape[axis + 1]? with
      | none => simp [hi, hs] at h
      | some s =>
        simp only [hi, hs] at h
        have hset : ∀ (x : Nat), (indices.set (axis + 1) x).getD 0 0 =
            indices.getD 0 0 := by
          intro x
          rw [List.getD_eq_getElem?_getD, List.getD_eq_getElem?_getD,
            List.getElem?_set_ne (by omega)]
        by_cases hge : v + 1 ≥ s
        · rw [if_pos hge] at h
          have h1 := ih shape _ out h
          rw [List.set_set, hset 0] at h1
          exact h1
        · rw [if_neg hge] at h
          cases h
          rw [hset]

/-! ## Lemmas about `unrank` -/

theorem unrank_length : ∀ (shape : List Nat) (k : Nat),
    (unrank shape k).length = shape.length
  | [], _ => rfl
  | _ :: rest, k => by simp [unrank, unrank_length rest]

theorem unrank_zero : ∀ (shape : List Nat),
    unrank shape 0 = List.replicate shape.length 0
  | [] => rfl
  | s :: rest => by
    simp [unrank, Nat.zero_div, Nat.zero_mod, unrank_zero rest,
      List.replicate_succ]

theorem unrank_inBounds : ∀ (shape : List Nat), (∀ x ∈ shape, 0 < x) →
    ∀ k, k < shape.prod → inBounds shape (unrank shape k) = true := by
  intro shape
  induction shape with
  | nil =>
    intro _ k hk
    simp only [List.prod_nil, Nat.lt_one_iff] at hk
    subst hk
    rfl
  | cons s rest ih =>
    intro hpos k hk
    have hP : 0 < rest.prod :=
      List.prod_pos fun x hx => hpos x (List.mem_cons_of_mem _ hx)
    rw [inBounds_iff]
    constructor
    · simp [unrank, unrank_length]
    · intro i hi
      cases i with
      | zero =>
        simp only [unrank, List.getD_cons_zero]
        rw [Nat.div_lt_iff_lt_mul hP]
        rw [List.prod_cons] at hk
        exact hk
      | succ i =>
        have hrest := (inBounds_iff rest (unrank rest (k % rest.prod))).mp
          (ih (fun x hx => hpos x (List.mem_cons_of_mem _ hx))
            (k % rest.prod) (Nat.mod_lt _ hP))
        simp only [unrank, List.getD_cons_succ]
        exact hrest.2 i (by simp at hi; omega)

theorem unrank_top {s : Nat} {rest : List Nat} (hP : 0 < rest.prod) :
    unrank (s :: rest) ((s :: rest).prod) =
      s :: List.replicate rest.length 0 := by
  simp only [unrank, List.prod_cons]
  rw [Nat.mul_comm s rest.prod, Nat.mul_div_cancel_left _ hP,
    Nat.mul_mod_right, unrank_zero]

theorem get_none_at_unrank_top {a : NDArray T} {d : Nat}
    (hd : a.shape.length = d + 1) (hpos : ∀ x ∈ a.shape, 0 < x) :
    a.get (unrank a.shape a.shape.prod) = none := by
  obtain ⟨s, rest, hshape⟩ : ∃ s rest, a.shape = s :: rest := by
    cases h : a.shape with
    | nil => rw [h] at hd; cases hd
    | cons s rest => exact ⟨s, rest, rfl⟩
  have hP : 0 < rest.prod := by
    apply List.prod_pos
    intro x hx
    exact hpos x (by rw [hshape]; exact List.mem_cons_of_mem _ hx)
  apply get_none_of_head (by rw [hshape]; simp)
  rw [hshape, unrank_top hP]
  simp

/-- The increment at an axis inside the first `shape.length` positions
neither reads nor writes appended tail positions. -/
theorem inc_append : ∀ (axis : Nat) (shape extra indices extraIdx : List Nat),
    axis < shape.length → axis < indices.length →
    increment_idx_at_axis (shape ++ extra) (indices ++ extraIdx) axis =
      (increment_idx_at_axis shape indices axis).map (· ++ extraIdx) := by
  intro axis
  induction axis with
  | zero =>
    intro shape extra indices extraIdx _ hi
    simp only [increment_idx_at_axis, List.getElem?_append_left hi,
      List.getElem?_eq_getElem hi]
    rw [List.set_append_left _ _ hi]
    rfl
  | succ axis ih =>
    intro shape extra indices extraIdx hs hi
    simp only [increment_idx_at_axis, List.getElem?_append_left hi,
      List.getElem?_append_left hs, List.getElem?_eq_getElem hi,
      List.getElem?_eq_getElem hs]
    by_cases hge : indices[axis + 1] + 1 ≥ shape[axis + 1]
    · rw [if_pos hge, if_pos hge]
      rw [List.set_append_left _ _ hi,
        List.set_append_left _ _ (by simpa using hi)]
      exact ih shape extra _ extraIdx (by omega) (by simpa using Nat.lt_of_succ_lt hi)
    · rw [if_neg hge, if_neg hge]
      rw [List.set_append_left _ _ hi]
      rfl

/-- The defining equation of `unrank` on a nonempty shape, for precise
single-step rewriting. -/
theorem unrank_cons (s : Nat) (rest : List Nat) (k : Nat) :
    unrank (s :: rest) k = (k / rest.prod) :: unrank rest (k % rest.prod) :=
  rfl

theorem unrank_append_single : ∀ (init : List Nat) (s : Nat), 0 < s →
    (∀ x ∈ init, 0 < x) → ∀ k, k < init.prod * s →
    unrank (init ++ [s]) k = unrank init (k / s) ++ [k % s]
  | [], s, hs, _, k, hk => by
    simp only [List.prod_nil, Nat.one_mul] at hk
    simp [unrank, Nat.mod_eq_of_lt hk, Nat.mod_one]
  | x :: rest, s, hs, hpos, k, hk => by
    have hP : 0 < rest.prod :=
      List.prod_pos fun y hy => hpos y (List.mem_cons_of_mem _ hy)
    have hPs : 0 < rest.prod * s := Nat.mul_pos hP hs
    have hprod : ((rest ++ [s]).prod) = rest.prod * s := by
      rw [List.prod_append]
      simp
    have hih := unrank_append_single rest s hs
      (fun y hy => hpos y (List.mem_cons_of_mem _ hy))
      (k % (rest.prod * s)) (Nat.mod_lt _ hPs)
    rw [List.cons_append, unrank_cons, hprod, hih, unrank_cons,
      List.cons_append]
    congr 1
    · rw [Nat.div_div_eq_div_mul, Nat.mul_comm s rest.prod]
    · rw [Nat.mod_mod_of_dvd k (dvd_mul_left s rest.prod),
        Nat.mul_comm rest.prod s, Nat.mod_mul_right_div_self]

theorem unrank_top_append {init : List Nat} {s : Nat} (hs : 0 < s)
    (hpos : ∀ x ∈ init, 0 < x) (hne : init ≠ []) :
    unrank (init ++ [s]) (init.prod * s) = unrank init init.prod ++ [0] := by
  obtain ⟨x, rest, hinit⟩ : ∃ x rest, init = x :: rest := by
    cases init with
    | nil => exact absurd rfl hne
    | cons x rest => exact ⟨x, rest, rfl⟩
  subst hinit
  have hP : 0 < rest.prod :=
    List.prod_pos fun y hy => hpos y (List.mem_cons_of_mem _ hy)
  have hPs : 0 < rest.prod * s := Nat.mul_pos hP hs
  have hprod : ((rest ++ [s]).prod) = rest.prod * s := by
    rw [List.prod_append]
    simp
  rw [List.cons_append, unrank_cons, hprod, List.prod_cons, unrank_cons,
    List.cons_append]
  congr 1
  · rw [Nat.mul_assoc, Nat.mul_div_cancel _ hPs, Nat.mul_div_cancel _ hP]
  · rw [Nat.mul_assoc, Nat.mul_mod_left, Nat.mul_mod_left,
      unrank_zero, unrank_zero]
    simp [List.replicate_succ']

/-- The odometer increment sends the `k`-th row-major index tuple to
the `k+1`-st, for every `k` below the total element count. -/
theorem inc_unrank : ∀ (shape : List Nat), shape ≠ [] →
    (∀ x ∈ shape, 0 < x) → ∀ k, k < shape.prod →
    increment_idx_at_axis shape (unrank shape k) (shape.length - 1) =
      some (unrank shape (k + 1)) := by
  intro shape
  induction shape using List.reverseRecOn with
  | nil => intro h; exact absurd rfl h
  | append_singleton init s ih =>
    intro _ hpos k hk
    have hs : 0 < s := hpos s (by simp)
    by_cases hne : init = []
    · subst hne
      have hks : k < s := by simpa using hk
      have h1 : unrank ([] ++ [s]) k = [k] := by
        simp [unrank, Nat.mod_one]
      have h2 : unrank ([] ++ [s]) (k + 1) = [k + 1] := by
        simp [unrank, Nat.mod_one]
      rw [h1, h2]
      simp [increment_idx_at_axis]
    · have hlen1 : 0 < init.length := List.length_pos.mpr hne
      have hposi : ∀ y ∈ init, 0 < y := fun y hy =>
        hpos y (List.mem_append_left _ hy)
      have hkprod : k < init.prod * s := by
        rw [List.prod_append] at hk
        simpa using hk
      have haxis : (init ++ [s]).length - 1 = init.length := by
        simp
      have hu : unrank (init ++ [s]) k = unrank init (k / s) ++ [k % s] :=
        unrank_append_single init s hs hposi k hkprod
      have hulen : (unrank init (k / s)).length = init.length :=
        unrank_length init _
      obtain ⟨m, hm⟩ : ∃ m, init.length = m + 1 := ⟨init.length - 1, by omega⟩
      have hget_idx : (unrank init (k / s) ++ [k % s])[m + 1]? =
          some (k % s) := by
        rw [List.getElem?_append_right (by omega)]
        rw [hulen, hm]
        simp
      have hget_sh : (init ++ [s])[m + 1]? = some s := by
        rw [List.getElem?_append_right (by omega)]
        rw [hm]
        simp
      rw [haxis, hu, hm]
      simp only [increment_idx_at_axis, hget_idx, hget_sh]
      have hdm := Nat.div_add_mod k s
      by_cases hge : k % s + 1 ≥ s
      · rw [if_pos hge]
        have hmod : k % s = s - 1 := by
          have := Nat.mod_lt k hs
          omega
        have hsk : k + 1 = s * (k / s + 1) := by
          rw [Nat.mul_add]
          omega
        rw [List.set_set]
        have hset0 : (unrank init (k / s) ++ [k % s]).set (m + 1) 0 =
            unrank init (k / s) ++ [0] := by
          rw [List.set_append_right _ _ (by omega)]
          rw [hulen, hm]
          simp
        rw [hset0]
        rw [inc_append m init [s] (unrank init (k / s)) [0]
          (by omega) (by omega)]
        have hdivlt : k / s < init.prod := by
          rw [Nat.div_lt_iff_lt_mul hs]
          exact hkprod
        have hrec := ih hne hposi (k / s) hdivlt
        rw [show init.length - 1 = m by omega] at hrec
        rw [hrec]
        by_cases htop : k + 1 = init.prod * s
        · have hq : k / s + 1 = init.prod := by
            have h2 : s * (k / s + 1) = s * init.prod := by
              rw [← hsk, htop]
              exact Nat.mul_comm init.prod s
            exact Nat.eq_of_mul_eq_mul_left hs h2
          rw [htop, unrank_top_append hs hposi hne, hq]
          rfl
        · have hlt : k + 1 < init.prod * s := by omega
          rw [unrank_append_single init s hs hposi (k + 1) hlt]
          have hd1 : (k + 1) / s = k / s + 1 := by
            rw [hsk, Nat.mul_div_cancel_left _ hs]
          have hd2 : (k + 1) % s = 0 := by
            rw [hsk, Nat.mul_mod_right]
          rw [hd1, hd2]
          rfl
      · rw [if_neg hge]
        have hlt : k + 1 < init.prod * s := by
          by_contra hc
          have hktop : k + 1 = init.prod * s := by omega
          have h0 : (k + 1) % s = 0 := by
            rw [hktop, Nat.mul_mod_left]
          have h1 : (k + 1) % s = k % s + 1 := by
            conv_lhs => rw [← hdm, Nat.add_assoc]
            rw [Nat.mul_add_mod]
            exact Nat.mod_eq_of_lt (by omega)
          omega
        rw [unrank_append_single init s hs hposi (k + 1) hlt]
        have hmlt : k % s < s := Nat.mod_lt k hs
        have hdm2 : (k + 1) / s = k / s ∧ (k + 1) % s = k % s + 1 := by
          rw [Nat.div_mod_unique hs]
          omega
        rw [hdm2.1, hdm2.2]
        rw [List.set_append_right _ _ (by omega)]
        rw [hulen, hm]
        simp

/-! ## The flat-traversal trace -/

theorem flatTraceFrom_spec {T : Type} {a : NDArray T} {d : Nat}
    (hpos : ∀ x ∈ a.shape, 0 < x) (hd : a.shape.length = d + 1) :
    ∀ (n k fuel : Nat), k + n = a.shape.prod → n < fuel →
    flatTraceFrom (d + 1) a fuel (unrank a.shape k) =
      ((List.range' k n).map fun j =>
        (unrank a.shape j, some (a.elem (unrank a.shape j)))) ++
        [(unrank a.shape a.shape.prod, none)] := by
  intro n
  induction n with
  | zero =>
    intro k fuel hsum hfuel
    match fuel, hfuel with
    | fuel + 1, _ =>
      have hk : k = a.shape.prod := by omega
      subst hk
      have hget : a.get (unrank a.shape a.shape.prod) = none :=
        get_none_at_unrank_top hd hpos
      obtain ⟨out, hout⟩ := inc_isSome d a.shape (unrank a.shape a.shape.prod)
        (by omega) (by rw [unrank_length]; omega)
      simp only [flatTraceFrom, iterNext, hget, increment_indices, hout]
      rfl
  | succ n ih =>
    intro k fuel hsum hfuel
    match fuel, hfuel with
    | fuel + 1, hfuel =>
      have hk : k < a.shape.prod := by omega
      have hne : a.shape ≠ [] := by
        intro hcon
        rw [hcon] at hd
        cases hd
      have hget : a.get (unrank a.shape k) =
          some (a.elem (unrank a.shape k)) := by
        simp [NDArray.get, unrank_inBounds a.shape hpos k hk]
      have hinc : increment_idx_at_axis a.shape (unrank a.shape k) d =
          some (unrank a.shape (k + 1)) := by
        have h := inc_unrank a.shape hne hpos k hk
        rw [hd] at h
        simpa using h
      simp only [flatTraceFrom, iterNext, hget, increment_indices, hinc]
      rw [ih (k + 1) fuel (by omega) (by omega), List.range'_succ]
      simp

theorem flatTrace_pos {T : Type} {a : NDArray T} {d : Nat}
    (hpos : ∀ x ∈ a.shape, 0 < x) (hd : a.shape.length = d + 1) :
    flatTrace (d + 1) a =
      ((List.range a.shape.prod).map fun j =>
        (unrank a.shape j, some (a.elem (unrank a.shape j)))) ++
        [(unrank a.shape a.shape.prod, none)] := by
  have h0 : List.replicate (d + 1) 0 = unrank a.shape 0 := by
    rw [unrank_zero, hd]
  rw [flatTrace, h0, flatTraceFrom_spec hpos hd a.shape.prod 0
    (a.shape.prod + 1) (by omega) (by omega), List.range_eq_range']

theorem filterMap_some_fun {α β : Type _} (f : α → β) :
    ∀ (l : List α), l.filterMap (fun x => some (f x)) = l.map f
  | [] => rfl
  | x :: l => by simp [List.filterMap_cons, filterMap_some_fun f l]

theorem flatList_pos {T : Type} {a : NDArray T} {d : Nat}
    (hpos : ∀ x ∈ a.shape, 0 < x) (hd : a.shape.length = d + 1) :
    flatList (d + 1) a =
      (List.range a.shape.prod).map fun j => a.elem (unrank a.shape j) := by
  rw [flatList, flatTrace_pos hpos hd, List.filterMap_append,
    List.filterMap_map]
  rw [show (List.filterMap Prod.snd
    [(unrank a.shape a.shape.prod, (none : Option T))]) = [] from rfl]
  rw [List.append_nil]
  exact filterMap_some_fun (fun j => a.elem (unrank a.shape j)) _

theorem succLookups_pos {T : Type} {a : NDArray T} {d : Nat}
    (hpos : ∀ x ∈ a.shape, 0 < x) (hd : a.shape.length = d + 1) :
    succLookups (d + 1) a = (List.range a.shape.prod).map (unrank a.shape) := by
  rw [succLookups, flatTrace_pos hpos hd, List.filterMap_append,
    List.filterMap_map]
  rw [show (List.filterMap (fun (p : List Nat × Option T) =>
    p.2.map fun _ => p.1)
    [(unrank a.shape a.shape.prod, (none : Option T))]) = [] from rfl]
  rw [List.append_nil]
  exact filterMap_some_fun (unrank a.shape) _

theorem flatTrace_zero {T : Type} {a : NDArray T} {d : Nat}
    (hz : 0 ∈ a.shape) (hd : a.shape.length = d + 1) :
    flatTrace (d + 1) a = [(List.replicate (d + 1) 0, none)] := by
  have hget : a.get (List.replicate (d + 1) 0) = none := by
    have hnb : ¬ inBounds a.shape (List.replicate (d + 1) 0) = true := by
      intro hb
      obtain ⟨i, hlt, hi⟩ := List.mem_iff_getElem.mp hz
      have h2 := ((inBounds_iff _ _).mp hb).2 i (by omega)
      rw [List.getD_eq_getElem?_getD a.shape, List.getElem?_eq_getElem hlt,
        hi] at h2
      simp at h2
    simp [NDArray.get, hnb]
  obtain ⟨out, hout⟩ := inc_isSome d a.shape (List.replicate (d + 1) 0)
    (by omega) (by simp)
  have hprod : a.shape.prod = 0 := List.prod_eq_zero hz
  rw [flatTrace, hprod]
  simp only [flatTraceFrom, iterNext, hget, increment_indices, hout]

theorem flatList_zero {T : Type} {a : NDArray T} {d : Nat}
    (hz : 0 ∈ a.shape) (hd : a.shape.length = d + 1) :
    flatList (d + 1) a = [] := by
  rw [flatList, flatTrace_zero hz hd]
  rfl

theorem succLookups_zero {T : Type} {a : NDArray T} {d : Nat}
    (hz : 0 ∈ a.shape) (hd : a.shape.length = d + 1) :
    succLookups (d + 1) a = [] := by
  rw [succLookups, flatTrace_zero hz hd]
  rfl

/-- `unrank` is strictly monotone from `Nat` to the lexicographic
order (axis 0 most significant, axis `D-1` fastest-varying). -/
theorem unrank_lex : ∀ (shape : List Nat), shape ≠ [] →
    (∀ x ∈ shape, 0 < x) → ∀ k1 k2, k1 < k2 →
    List.Lex (· < ·) (unrank shape k1) (unrank shape k2)
  | [], h, _, _, _, _ => absurd rfl h
  | [s], _, _, k1, k2, hk => by
    rw [unrank_cons, unrank_cons]
    simp only [List.prod_nil, Nat.div_one]
    exact List.Lex.rel hk
  | s :: s2 :: rest, _, hpos, k1, k2, hk => by
    have hP : 0 < (s2 :: rest).prod :=
      List.prod_pos fun y hy => hpos y (List.mem_cons_of_mem _ hy)
    rw [unrank_cons, unrank_cons]
    rcases Nat.lt_or_ge (k1 / (s2 :: rest).prod) (k2 / (s2 :: rest).prod)
      with h | h
    · exact List.Lex.rel h
    · have heq : k1 / (s2 :: rest).prod = k2 / (s2 :: rest).prod :=
        Nat.le_antisymm (Nat.div_le_div_right (Nat.le_of_lt hk)) h
      have h1 := Nat.div_add_mod k1 (s2 :: rest).prod
      have h2 := Nat.div_add_mod k2 (s2 :: rest).prod
      rw [heq] at h1
      have hmod : k1 % (s2 :: rest).prod < k2 % (s2 :: rest).prod := by omega
      rw [heq]
      exact List.Lex.cons (unrank_lex (s2 :: rest) (by simp)
        (fun y hy => hpos y (List.mem_cons_of_mem _ hy)) _ _ hmod)

/-! ## Claim theorems for the flat traversal -/

/-- Claim C1: for every well-formed array with `D ≥ 1` (whose accessor
succeeds exactly on in-bounds tuples, which holds by construction of
the model), flat traversal yields exactly `shape.prod` elements, the
yielded elements are the array's elements at the successful lookup
tuples, those tuples are lexicographically strictly increasing with
axis `D-1` fastest-varying; in particular the concrete 2×3 row-major
array `[1,2,3,4,5,6]` flattens to `[1,2,3,4,5,6]`. -/
theorem claim_C1 (D : Nat) (a : NDArray T) (hwf : wf D a) (hD : 1 ≤ D) :
    (flatList D a).length = a.shape.prod ∧
    flatList D a = (succLookups D a).map a.elem ∧
    List.Pairwise (List.Lex (· < ·)) (succLookups D a) ∧
    flatList 2 ex23 = [1, 2, 3, 4, 5, 6] := by
  obtain ⟨d, hd⟩ : ∃ d, D = d + 1 := ⟨D - 1, by omega⟩
  subst hd
  have hlen : a.shape.length = d + 1 := hwf.1
  have hconc : flatList 2 ex23 = [1, 2, 3, 4, 5, 6] := by decide
  by_cases hz : 0 ∈ a.shape
  · rw [flatList_zero hz hlen, succLookups_zero hz hlen,
      List.prod_eq_zero hz]
    exact ⟨rfl, rfl, List.Pairwise.nil, hconc⟩
  · have hpos : ∀ x ∈ a.shape, 0 < x := by
      intro x hx
      rcases Nat.eq_zero_or_pos x with h | h
      · exact absurd (h ▸ hx) hz
      · exact h
    have hne : a.shape ≠ [] := by
      intro hc
      rw [hc] at hlen
      cases hlen
    rw [flatList_pos hpos hlen, succLookups_pos hpos hlen]
    refine ⟨by simp, ?_, ?_, hconc⟩
    · rw [List.map_map]
      rfl
    · rw [List.pairwise_map]
      exact (List.pairwise_lt_range _).imp
        fun h => unrank_lex a.shape hne hpos _ _ h

theorem claim_C1_witness :
    (wf 2 ex23 ∧ 1 ≤ 2) ∧
    ((flatList 2 ex23).length = ex23.shape.prod ∧
      flatList 2 ex23 = (succLookups 2 ex23).map ex23.elem ∧
      List.Pairwise (List.Lex (· < ·)) (succLookups 2 ex23) ∧
      flatList 2 ex23 = [1, 2, 3, 4, 5, 6]) :=
  ⟨⟨by decide, by decide⟩, claim_C1 2 ex23 (by decide) (by decide)⟩

/-- Claim C10: for `D ≥ 1` (with index counter of length `D`), every
call to `next` performs only in-bounds internal accesses and so
returns (is not a panic); for `D = 0` the very first call to `next`
panics (the `D - 1` axis computation underflows) instead of returning
end-of-sequence. -/
theorem claim_C10 (D : Nat) (a : NDArray T) (indices : List Nat)
    (hwf : wf D a) (hlen : indices.length = D) :
    (1 ≤ D → (iterNext D a indices).isSome = true) ∧
    (D = 0 → iterNext D a indices = none) := by
  constructor
  · intro hD
    obtain ⟨d, hd⟩ : ∃ d, D = d + 1 := ⟨D - 1, by omega⟩
    subst hd
    obtain ⟨out, hout⟩ := inc_isSome d a.shape indices
      (by have := hwf.1; omega) (by omega)
    simp [iterNext, increment_indices, hout]
  · intro h0
    subst h0
    rfl

theorem claim_C10_witness :
    (wf 2 ex23 ∧ ([0, 0] : List Nat).length = 2) ∧
    ((1 ≤ 2 → (iterNext 2 ex23 [0, 0]).isSome = true) ∧
      (2 = 0 → iterNext 2 ex23 [0, 0] = none)) :=
  ⟨⟨by decide, by decide⟩, claim_C10 2 ex23 [0, 0] (by decide) (by decide)⟩

theorem iterateNext_dead {D : Nat} {a : NDArray T} (hwf : wf D a)
    (hD : 1 ≤ D) :
    ∀ (n : Nat) (indices out : List Nat), indices.length = D →
      a.shape.getD 0 0 ≤ indices.getD 0 0 →
      iterateNext D a n indices = some out →
      out.length = D ∧ a.shape.getD 0 0 ≤ out.getD 0 0 := by
  obtain ⟨d, hd⟩ : ∃ d, D = d + 1 := ⟨D - 1, by omega⟩
  subst hd
  intro n
  induction n with
  | zero =>
    intro indices out hlen hge h
    cases h
    exact ⟨hlen, hge⟩
  | succ n ih =>
    intro indices out hlen hge h
    simp only [iterateNext] at h
    obtain ⟨mid, hmid⟩ := inc_isSome d a.shape indices
      (by have := hwf.1; omega) (by omega)
    have hnext : iterNext (d + 1) a indices = some (a.get indices, mid) := by
      simp [iterNext, increment_indices, hmid]
    rw [hnext] at h
    exact ih mid out ((inc_length d _ _ _ hmid).trans hlen)
      (Nat.le_trans hge (inc_head d _ _ _ hmid)) h

/-- Claim C8: the carry never resets axis 0, so the axis-0 counter is
non-decreasing under the increment; and from any state whose axis-0
counter has reached `shape[0]`, after any number of further `next`
calls the lookup still fails and `next` still returns end-of-sequence. -/
theorem claim_C8 (D : Nat) (a : NDArray T) (hwf : wf D a) (hD : 1 ≤ D) :
    (∀ (indices out : List Nat),
      increment_indices D a.shape indices = some out →
      indices.getD 0 0 ≤ out.getD 0 0) ∧
    (∀ (indices : List Nat), indices.length = D →
      a.shape.getD 0 0 ≤ indices.getD 0 0 →
      ∀ (n : Nat) (out : List Nat), iterateNext D a n indices = some out →
        a.get out = none ∧
        ∃ out2, iterNext D a out = some (none, out2)) := by
  obtain ⟨d, hd⟩ : ∃ d, D = d + 1 := ⟨D - 1, by omega⟩
  subst hd
  have hlen0 : 0 < a.shape.length := by
    have := hwf.1
    omega
  constructor
  · intro indices out h
    exact inc_head d a.shape indices out (by simpa [increment_indices] using h)
  · intro indices hlen hge n out hiter
    obtain ⟨hlen2, hge2⟩ := iterateNext_dead hwf (by omega) n indices out
      hlen hge hiter
    have hget : a.get out = none := get_none_of_head hlen0 hge2
    obtain ⟨out2, hout2⟩ := inc_isSome d a.shape out
      (by have := hwf.1; omega) (by omega)
    refine ⟨hget, out2, ?_⟩
    simp [iterNext, increment_indices, hout2, hget]

theorem claim_C8_witness :
    (wf 2 ex23 ∧ 1 ≤ 2) ∧
    ((∀ (indices out : List Nat),
        increment_indices 2 ex23.shape indices = some out →
        indices.getD 0 0 ≤ out.getD 0 0) ∧
      (∀ (indices : List Nat), indices.length = 2 →
        ex23.shape.getD 0 0 ≤ indices.getD 0 0 →
        ∀ (n : Nat) (out : List Nat),
          iterateNext 2 ex23 n indices = some out →
          ex23.get out = none ∧
          ∃ out2, iterNext 2 ex23 out = some (none, out2))) :=
  ⟨⟨by decide, by decide⟩, claim_C8 2 ex23 (by decide) (by decide)⟩

/-- Claim C7 (amended: restricted to arrays all of whose extents are
positive, as §3 of the specification stipulates — with a zero extent
the unique failing lookup happens before axis 0 overflows, see
`claim_C7_cex`): during a full flat traversal exactly one accessor
call fails; it fails at a tuple whose axis-0 entry equals `shape[0]`
while every successful lookup has axis-0 entry below `shape[0]` (so
the failure is at the first overflow of axis 0); and the failing
lookup is the last event of the traversal, reported as
end-of-sequence rather than an error. -/
theorem claim_C7 (D : Nat) (a : NDArray T) (hwf : wf D a) (hD : 1 ≤ D)
    (hpos : ∀ x ∈ a.shape, 0 < x) :
    (flatTrace D a).countP (fun p => p.2.isNone) = 1 ∧
    (∀ p ∈ flatTrace D a, p.2 = none →
      p.1.getD 0 0 = a.shape.getD 0 0) ∧
    (∀ p ∈ flatTrace D a, p.2 ≠ none →
      p.1.getD 0 0 < a.shape.getD 0 0) ∧
    (flatTrace D a).getLast? = some (unrank a.shape a.shape.prod, none) := by
  obtain ⟨d, hd⟩ : ∃ d, D = d + 1 := ⟨D - 1, by omega⟩
  subst hd
  have hlen : a.shape.length = d + 1 := hwf.1
  obtain ⟨s0, rest, hshape⟩ : ∃ s0 rest, a.shape = s0 :: rest := by
    cases h : a.shape with
    | nil => rw [h] at hlen; cases hlen
    | cons s0 rest => exact ⟨s0, rest, rfl⟩
  have hP : 0 < rest.prod := by
    apply List.prod_pos
    intro y hy
    exact hpos y (by rw [hshape]; exact List.mem_cons_of_mem _ hy)
  have htr := flatTrace_pos hpos hlen
  have hheadtop : (unrank a.shape a.shape.prod).getD 0 0 =
      a.shape.getD 0 0 := by
    rw [hshape, unrank_top hP]
    rfl
  refine ⟨?_, ?_, ?_, ?_⟩
  · rw [htr, List.countP_append]
    have h1 : (List.countP (fun p => p.2.isNone)
        ((List.range a.shape.prod).map fun j =>
          (unrank a.shape j, some (a.elem (unrank a.shape j))))) = 0 := by
      rw [List.countP_eq_zero]
      intro p hp
      rw [List.mem_map] at hp
      obtain ⟨j, _, hj⟩ := hp
      rw [← hj]
      simp
    rw [h1]
    rfl
  · intro p hp hnone
    rw [htr, List.mem_append] at hp
    rcases hp with hp | hp
    · rw [List.mem_map] at hp
      obtain ⟨j, _, hj⟩ := hp
      rw [← hj] at hnone
      cases hnone
    · rw [List.mem_singleton] at hp
      rw [hp]
      exact hheadtop
  · intro p hp hsome
    rw [htr, List.mem_append] at hp
    rcases hp with hp | hp
    · rw [List.mem_map] at hp
      obtain ⟨j, hjmem, hj⟩ := hp
      have hjN : j < a.shape.prod := List.mem_range.mp hjmem
      rw [← hj]
      show (unrank a.shape j).getD 0 0 < a.shape.getD 0 0
      rw [hshape, unrank_cons]
      simp only [List.getD_cons_zero]
      rw [Nat.div_lt_iff_lt_mul hP]
      rw [hshape, List.prod_cons] at hjN
      exact hjN
    · rw [List.mem_singleton] at hp
      rw [hp] at hsome
      simp at hsome
  · rw [htr, List.getLast?_concat]

theorem claim_C7_witness :
    (wf 2 ex23 ∧ 1 ≤ 2 ∧ ∀ x ∈ ex23.shape, 0 < x) ∧
    ((flatTrace 2 ex23).countP (fun p => p.2.isNone) = 1 ∧
      (∀ p ∈ flatTrace 2 ex23, p.2 = none →
        p.1.getD 0 0 = ex23.shape.getD 0 0) ∧
      (∀ p ∈ flatTrace 2 ex23, p.2 ≠ none →
        p.1.getD 0 0 < ex23.shape.getD 0 0) ∧
      (flatTrace 2 ex23).getLast? =
        some (unrank ex23.shape ex23.shape.prod, none)) :=
  ⟨⟨by decide, by decide, by decide⟩,
    claim_C7 2 ex23 (by decide) (by decide) (by decide)⟩

/-- Counterexample to claim C7 as stated: `zarr10` has `D = 2 ≥ 1`,
its flat traversal's unique failing lookup happens at `[0, 0]`, whose
axis-0 entry `0` has NOT reached `shape[0] = 1` — the odometer never
overflowed axis 0. -/
theorem claim_C7_cex :
    wf 2 zarr10 ∧ 1 ≤ 2 ∧
    (flatTrace 2 zarr10).countP (fun p => p.2.isNone) = 1 ∧
    (∃ p ∈ flatTrace 2 zarr10, p.2 = none ∧
      p.1.getD 0 0 ≠ zarr10.shape.getD 0 0) := by
  decide

/-- Claim C6 (amended: the "zero views" conclusion holds for the axes
of extent 0; on an axis of positive extent the slab traversal still
yields `shape[axis]` views even when another axis has extent 0, see
`claim_C6_cex`): an array with some extent 0 yields no elements from
flat traversal, and axis-slab traversal on every axis of extent 0
yields no views. -/
theorem claim_C6 (D : Nat) (a : NDArray T) (hwf : wf D a) (hD : 1 ≤ D)
    (hz : 0 ∈ a.shape) :
    flatList D a = [] ∧
    ∀ axis, axis < D → a.shape.getD axis 0 = 0 →
      axisViews D a axis = some [] := by
  obtain ⟨d, hd⟩ : ∃ d, D = d + 1 := ⟨D - 1, by omega⟩
  subst hd
  refine ⟨flatList_zero hz hwf.1, ?_⟩
  intro axis haxis h0
  rw [axisViews_eq hwf haxis, h0]
  rfl

theorem claim_C6_witness :
    (wf 2 zarr20 ∧ 1 ≤ 2 ∧ (0 : Nat) ∈ zarr20.shape) ∧
    (flatList 2 zarr20 = [] ∧
      ∀ axis, axis < 2 → zarr20.shape.getD axis 0 = 0 →
        axisViews 2 zarr20 axis = some []) :=
  ⟨⟨by decide, by decide, by decide⟩,
    claim_C6 2 zarr20 (by decide) (by decide) (by decide)⟩

/-- Counterexample to claim C6 as stated: `zarr20` has shape `[2, 0]`
(an axis of extent 0), yet axis-slab traversal on axis 0 yields 2
views, not zero. -/
theorem claim_C6_cex :
    wf 2 zarr20 ∧ 1 ≤ 2 ∧ (0 : Nat) ∈ zarr20.shape ∧ 0 < 2 ∧
    (axisViews 2 zarr20 0).map List.length = some 2 ∧ (2 : Nat) ≠ 0 := by
  refine ⟨by decide, by decide, by decide, by decide, ?_, by decide⟩
  rfl

/-! ## The round trip: slabs along axis 0 refine the flat order -/

theorem zipWith_zero_ranges : ∀ (rest u : List Nat), u.length = rest.length →
    List.zipWith (fun (r : Nat × Nat) i => r.1 + i)
      (rest.map fun s => ((0 : Nat), s)) u = u
  | [], [], _ => rfl
  | [], _ :: _, h => by simp at h
  | _ :: _, [], h => by simp at h
  | s :: rest, x :: u, h => by
    simp only [List.map_cons, List.zipWith_cons_cons]
    rw [Nat.zero_add, zipWith_zero_ranges rest u (by simpa using h)]

theorem range_mul_map {α : Type _} (g : Nat → Nat → α) :
    ∀ (m P : Nat), 0 < P →
    (List.range (m * P)).map (fun i => g (i / P) (i % P)) =
      ((List.range m).map fun k => (List.range P).map fun j => g k j).flatten := by
  intro m
  induction m with
  | zero => intro P _; simp
  | succ m ih =>
    intro P hP
    rw [List.range_succ, Nat.succ_mul, List.range_add]
    rw [List.map_append, List.map_append, List.flatten_append, ih P hP]
    congr 1
    rw [List.map_map]
    rw [show (List.map (fun k => (List.range P).map fun j => g k j)
      [m]).flatten = (List.range P).map fun j => g m j by simp]
    apply List.map_congr_left
    intro j hj
    have hjP : j < P := List.mem_range.mp hj
    simp only [Function.comp]
    rw [Nat.mul_comm m P, Nat.mul_add_div hP, Nat.mul_add_mod,
      Nat.div_eq_of_lt hjP, Nat.mod_eq_of_lt hjP, Nat.add_zero]

/-- Claim C5: concatenating the flat traversals of the axis-0 slabs,
in slab order, reproduces the flat traversal of the array. -/
theorem claim_C5 (D : Nat) (a : NDArray T) (hwf : wf D a) (hD : 1 ≤ D) :
    ∃ views, axisViews D a 0 = some views ∧
      (views.map (flatList D)).flatten = flatList D a := by
  obtain ⟨d, hd⟩ : ∃ d, D = d + 1 := ⟨D - 1, by omega⟩
  subst hd
  have hlen : a.shape.length = d + 1 := hwf.1
  obtain ⟨s0, rest, hshape⟩ : ∃ s0 rest, a.shape = s0 :: rest := by
    cases h : a.shape with
    | nil => rw [h] at hlen; cases hlen
    | cons s0 rest => exact ⟨s0, rest, rfl⟩
  have hrestlen : rest.length = d := by
    rw [hshape] at hlen
    simpa using hlen
  have hgetD : a.shape.getD 0 0 = s0 := by
    rw [hshape]
    rfl
  have hslab : ∀ k : Nat, (fullRanges a.shape).set 0 (k, k + 1) =
      (k, k + 1) :: (rest.map fun s => ((0 : Nat), s)) := by
    intro k
    rw [hshape]
    rfl
  have hVshape : ∀ k : Nat,
      (a.slice ((k, k + 1) :: (rest.map fun s => ((0 : Nat), s)))).shape =
        1 :: rest := by
    intro k
    simp only [NDArray.slice, List.map_cons, List.map_map]
    rw [show k + 1 - k = 1 by omega]
    rw [List.map_congr_left
      (fun s _ => show ((fun (r : Nat × Nat) => r.2 - r.1) ∘
        fun s => ((0 : Nat), s)) s = s by simp)]
    rw [List.map_id']
  refine ⟨_, axisViews_eq hwf (by omega), ?_⟩
  rw [hgetD]
  by_cases hz : 0 ∈ a.shape
  · rw [flatList_zero hz hlen, List.flatten_eq_nil_iff]
    intro l hl
    rw [List.mem_map] at hl
    obtain ⟨v, hv, hlv⟩ := hl
    rw [List.mem_map] at hv
    obtain ⟨k, hkmem, hkv⟩ := hv
    have hk : k < s0 := List.mem_range.mp hkmem
    rw [← hlv, ← hkv, hslab k]
    have h0rest : 0 ∈ rest := by
      rw [hshape] at hz
      rcases List.mem_cons.mp hz with h | h
      · exact absurd h.symm (by omega)
      · exact h
    apply flatList_zero
    · rw [hVshape k]
      exact List.mem_cons_of_mem _ h0rest
    · rw [hVshape k]
      simpa using hrestlen
  · have hpos : ∀ x ∈ a.shape, 0 < x := by
      intro x hx
      rcases Nat.eq_zero_or_pos x with h | h
      · exact absurd (h ▸ hx) hz
      · exact h
    have hs0 : 0 < s0 := hpos s0 (by rw [hshape]; exact List.mem_cons_self _ _)
    have hP : 0 < rest.prod := by
      apply List.prod_pos
      intro y hy
      exact hpos y (by rw [hshape]; exact List.mem_cons_of_mem _ hy)
    have hslabflat : ∀ k, k < s0 →
        flatList (d + 1) (a.slice ((fullRanges a.shape).set 0 (k, k + 1))) =
          (List.range rest.prod).map fun j => a.elem (k :: unrank rest j) := by
      intro k hk
      rw [hslab k]
      have hVs := hVshape k
      have hVlen : (a.slice ((k, k + 1) ::
          (rest.map fun s => ((0 : Nat), s)))).shape.length = d + 1 := by
        rw [hVs]
        simpa using hrestlen
      have hVpos : ∀ x ∈ (a.slice ((k, k + 1) ::
          (rest.map fun s => ((0 : Nat), s)))).shape, 0 < x := by
        rw [hVs]
        intro x hx
        rcases List.mem_cons.mp hx with h | h
        · omega
        · exact hpos x (by rw [hshape]; exact List.mem_cons_of_mem _ h)
      rw [flatList_pos hVpos hVlen, hVs, List.prod_cons, Nat.one_mul]
      apply List.map_congr_left
      intro j hj
      have hjP : j < rest.prod := List.mem_range.mp hj
      have hu : unrank (1 :: rest) j = 0 :: unrank rest j := by
        rw [unrank_cons, Nat.div_eq_of_lt hjP, Nat.mod_eq_of_lt hjP]
      rw [hu]
      show a.elem (List.zipWith (fun (r : Nat × Nat) i => r.1 + i)
        ((k, k + 1) :: (rest.map fun s => ((0 : Nat), s)))
        (0 :: unrank rest j)) = a.elem (k :: unrank rest j)
      rw [List.zipWith_cons_cons, Nat.add_zero,
        zipWith_zero_ranges rest _ ((unrank_length rest _).trans rfl)]
    rw [flatList_pos hpos hlen, List.map_map]
    have hmc : List.map
        (flatList (d + 1) ∘
          fun k => a.slice ((fullRanges a.shape).set 0 (k, k + 1)))
        (List.range s0) =
        List.map (fun k => (List.range rest.prod).map
          fun j => a.elem (k :: unrank rest j)) (List.range s0) :=
      List.map_congr_left fun k hk => hslabflat k (List.mem_range.mp hk)
    rw [hmc]
    rw [← range_mul_map (fun k j => a.elem (k :: unrank rest j))
      s0 rest.prod hP]
    have hN : a.shape.prod = s0 * rest.prod := by
      rw [hshape, List.prod_cons]
    rw [hN]
    apply List.map_congr_left
    intro i _
    rw [hshape, unrank_cons]

theorem claim_C5_witness :
    (wf 2 ex23 ∧ 1 ≤ 2) ∧
    (∃ views, axisViews 2 ex23 0 = some views ∧
      (views.map (flatList 2)).flatten = flatList 2 ex23) :=
  ⟨⟨by decide, by decide⟩, claim_C5 2 ex23 (by decide) (by decide)⟩

end NdarrayRs
